import Mathlib

/-!
# Verification of the people-tracking core (`app/tracker.py`, `app/detector.py`)

This file is a shallow embedding of the per-frame tracking cycle of the
repository: the `Track` / `PeopleTracker` classes of `app/tracker.py`
(Kalman state, greedy nearest-centroid association, lifecycle management,
result construction) and the centroid computation of `app/detector.py`.

Modelling conventions:

* Python floats are modelled as exact rational numbers.  Rationals are
  represented by the explicit fraction type `Frac` (an integer numerator and a
  positive integer denominator, not reduced); every operation on `Frac` is
  plain integer arithmetic, so every definition here is executable and
  kernel-computable.  The lemmas `Frac.toRat_add`, `Frac.toRat_mul`,
  `Frac.le_iff_toRat`, … prove that `Frac` arithmetic is exactly the
  arithmetic of `ℚ`.
* `math.hypot` (the Euclidean distance used by `PeopleTracker._distance`) is
  strictly monotone on squares, so the code's comparisons of distances are
  embedded as comparisons of squared distances; the comparison of a distance
  with the gate `max_distance` is embedded as
  `0 ≤ max_distance ∧ d² ≤ max_distance²`, which is equivalent to
  `hypot ≤ max_distance` (see `gateOK_iff_sqrt`).
* A `try that catches `Exception` and logs is modelled by an operation that
  returns the unchanged state together with an optional diagnostic.  The only
  numeric-failure point of the Kalman filter in exact arithmetic is the matrix
  inversion inside `update` (singular innovation covariance, where
  `numpy.linalg.inv` raises); `predict` has no failure point.
* The Python module-global `_TRACK_ID` is threaded explicitly: constructing a
  `PeopleTracker` resets it to 1, and `PeopleTracker.update` takes and returns
  its current value.
-/

/-- Exact (unreduced) fraction: numerator over positive denominator.
Models Python float values exactly. -/
structure Frac where
  num : ℤ
  den : ℤ
  den_pos : 0 < den
deriving DecidableEq

namespace Frac

/-- Embed an integer. -/
def ofInt (n : ℤ) : Frac := ⟨n, 1, one_pos⟩

instance : Add Frac :=
  ⟨fun a b => ⟨a.num * b.den + b.num * a.den, a.den * b.den, mul_pos a.den_pos b.den_pos⟩⟩

instance : Sub Frac :=
  ⟨fun a b => ⟨a.num * b.den - b.num * a.den, a.den * b.den, mul_pos a.den_pos b.den_pos⟩⟩

instance : Mul Frac :=
  ⟨fun a b => ⟨a.num * b.num, a.den * b.den, mul_pos a.den_pos b.den_pos⟩⟩

instance : Neg Frac := ⟨fun a => ⟨-a.num, a.den, a.den_pos⟩⟩

/-- Exact division.  The `b.num = 0` branch is never reached by the embedded
code (the Kalman update tests the determinant for zero before inverting, and
the only other divisor is the literal 2). -/
def div (a b : Frac) : Frac :=
  if h : 0 < b.num then ⟨a.num * b.den, a.den * b.num, mul_pos a.den_pos h⟩
  else if h' : b.num < 0 then
    ⟨-(a.num * b.den), a.den * (-b.num), mul_pos a.den_pos (by omega)⟩
  else ⟨0, 1, one_pos⟩

instance : Div Frac := ⟨Frac.div⟩

instance : LE Frac := ⟨fun a b => a.num * b.den ≤ b.num * a.den⟩
instance : LT Frac := ⟨fun a b => a.num * b.den < b.num * a.den⟩

instance (a b : Frac) : Decidable (a ≤ b) := inferInstanceAs (Decidable (_ ≤ _))
instance (a b : Frac) : Decidable (a < b) := inferInstanceAs (Decidable (_ < _))

/-- The rational number a `Frac` denotes. -/
def toRat (q : Frac) : ℚ := q.num / q.den

end Frac

/-! ## Small vectors and matrices over `Frac`

`filterpy.kalman.KalmanFilter` state for `dim_x=4, dim_z=2`, written with
explicit dot products so that everything reduces in the kernel. -/

/-- Dot product of two `Fin n`-indexed vectors of fractions. -/
def dotF : {n : ℕ} → (Fin n → Frac) → (Fin n → Frac) → Frac
  | 0, _, _ => Frac.ofInt 0
  | _ + 1, v, w => v 0 * w 0 + dotF (fun i => v i.succ) (fun i => w i.succ)

/-- Matrix product. -/
def mmul {m n k : ℕ} (A : Fin m → Fin n → Frac) (B : Fin n → Fin k → Frac) :
    Fin m → Fin k → Frac :=
  fun i j => dotF (fun l => A i l) (fun l => B l j)

/-- Matrix transpose. -/
def mT {m n : ℕ} (A : Fin m → Fin n → Frac) : Fin n → Fin m → Frac :=
  fun i j => A j i

/-- Matrix sum. -/
def madd {m n : ℕ} (A B : Fin m → Fin n → Frac) : Fin m → Fin n → Frac :=
  fun i j => A i j + B i j

/-- Matrix difference. -/
def msub {m n : ℕ} (A B : Fin m → Fin n → Frac) : Fin m → Fin n → Frac :=
  fun i j => A i j - B i j

/-- Matrix–vector product. -/
def mulVecF {m n : ℕ} (A : Fin m → Fin n → Frac) (v : Fin n → Frac) : Fin m → Frac :=
  fun i => dotF (A i) v

/-- The `m × m` identity matrix. -/
def idM (m : ℕ) : Fin m → Fin m → Frac :=
  fun i j => Frac.ofInt (if i = j then 1 else 0)

/-! ## The Kalman filter of `Track.__init__` (tracker.py, lines 30–40)

State `[cx, cy, vx, vy]`; the constant matrices are exactly the ones the
constructor assigns: `F`, `H`, `P = 100·I`, `R = 5·I`, `Q = 0.01·I`. -/

/-- `self.kf.F` (constant-velocity transition). -/
def kfF : Fin 4 → Fin 4 → Frac :=
  fun i j => Frac.ofInt (!![1, 0, 1, 0; 0, 1, 0, 1; 0, 0, 1, 0; 0, 0, 0, 1] i j)

/-- `self.kf.H` (observe the position components only). -/
def kfH : Fin 2 → Fin 4 → Frac :=
  fun i j => Frac.ofInt (!![1, 0, 0, 0; 0, 1, 0, 0] i j)

/-- `self.kf.P *= 100.0` (initial uncertainty). -/
def kfP0 : Fin 4 → Fin 4 → Frac :=
  fun i j => Frac.ofInt (if i = j then 100 else 0)

/-- `self.kf.R *= 5.0` (measurement noise, 2×2). -/
def kfR : Fin 2 → Fin 2 → Frac :=
  fun i j => Frac.ofInt (if i = j then 5 else 0)

/-- `self.kf.Q *= 0.01` (process noise). -/
def kfQnoise : Fin 4 → Fin 4 → Frac :=
  fun i j => ⟨if i = j then 1 else 0, 100, by norm_num⟩

/-- The mutable state of `self.kf`: state estimate `x` and covariance `P`
(`F`, `H`, `Q`, `R` are constants fixed by `Track.__init__`). -/
structure KF where
  x : Fin 4 → Frac
  P : Fin 4 → Fin 4 → Frac
deriving DecidableEq

/-- `filterpy` `KalmanFilter.predict` with `B, u` absent and `alpha = 1`:
`x ← F x`, `P ← F P Fᵀ + Q`.  In exact arithmetic it has no failure point. -/
def kfPredict (kf : KF) : KF :=
  ⟨mulVecF kfF kf.x, madd (mmul (mmul kfF kf.P) (mT kfF)) kfQnoise⟩

/-- `filterpy` `KalmanFilter.update z`:
`y = z − H x`, `S = H P Hᵀ + R`, `K = P Hᵀ S⁻¹`, `x ← x + K y`,
`P ← (I − K H) P (I − K H)ᵀ + K R Kᵀ`.
`numpy.linalg.inv` raises on a singular `S`; this is the numeric-failure
point, modelled as `none`.  `S⁻¹` is computed by the 2×2 adjugate formula. -/
def kfUpdate (kf : KF) (z : Fin 2 → Frac) : Option KF :=
  let y : Fin 2 → Frac := fun i => z i - mulVecF kfH kf.x i
  let S := madd (mmul (mmul kfH kf.P) (mT kfH)) kfR
  let detS := S 0 0 * S 1 1 - S 0 1 * S 1 0
  if detS.num = 0 then none
  else
    let Sinv : Fin 2 → Fin 2 → Frac :=
      fun i j => (!![S 1 1, -(S 0 1); -(S 1 0), S 0 0] i j) / detS
    let K := mmul (mmul kf.P (mT kfH)) Sinv
    let x' : Fin 4 → Frac := fun i => kf.x i + mulVecF K y i
    let IKH := msub (idM 4) (mmul K kfH)
    some ⟨x', madd (mmul (mmul IKH kf.P) (mT IKH)) (mmul (mmul K kfR) (mT K))⟩

/-! ## Data model -/

/-- A bounding box `(x1, y1, x2, y2)` in integer pixel coordinates. -/
abbrev Bbox := ℤ × ℤ × ℤ × ℤ

/-- A detection record as consumed by `PeopleTracker.update`: the fields
`bbox`, `center` and (optionally, via `det.get("conf", None)`) `conf`;
`class` is carried by the detector's output but never read by the tracker. -/
structure Detection where
  bbox : Bbox
  conf : Option Frac
  center : ℤ × ℤ
  cls : String
deriving DecidableEq

/-- A per-track result record (tracker.py, lines 138–143). -/
structure Result where
  id : ℕ
  bbox : Bbox
  conf : Option Frac
  cls : String
deriving DecidableEq

/-- The `Track` class: id, Kalman filter, last observed bbox, counters. -/
structure Track where
  id : ℕ
  kf : KF
  bbox : Bbox
  missed_frames : ℕ
  hits : ℕ
deriving DecidableEq

/-- `Track.__init__(bbox, track_id)`: centre `((x1+x2)/2.0, (y1+y2)/2.0)`
(exact float midpoint), state `[cx, cy, 0, 0]`, `P = 100·I`,
`missed_frames = 0`, `hits = 1`. -/
def Track.init (bbox : Bbox) (track_id : ℕ) : Track :=
  let (x1, y1, x2, y2) := bbox
  let cx := Frac.ofInt (x1 + x2) / Frac.ofInt 2
  let cy := Frac.ofInt (y1 + y2) / Frac.ofInt 2
  { id := track_id
    kf := ⟨![cx, cy, Frac.ofInt 0, Frac.ofInt 0], kfP0⟩
    bbox := bbox
    missed_frames := 0
    hits := 1 }

/-- `Track.predict`: `self.kf.predict()` inside `try/except`.  In exact
arithmetic `predict` cannot fail, so the except branch is unreachable and the
operation is total. -/
def Track.predict (tr : Track) : Track :=
  { tr with kf := kfPredict tr.kf }

/-- `Track.update(bbox)` with its `try/except`: on success the filter is
corrected with the bbox centre and `bbox`/`missed_frames`/`hits` are written;
on failure (`kfUpdate = none`, i.e. `numpy.linalg.inv` raising inside
`self.kf.update`) the state is left unchanged and
`logging.exception(..., self.id)` is emitted — returned as `some id`. -/
def Track.updateD (tr : Track) (bbox : Bbox) : Track × Option ℕ :=
  let (x1, y1, x2, y2) := bbox
  let cx := Frac.ofInt (x1 + x2) / Frac.ofInt 2
  let cy := Frac.ofInt (y1 + y2) / Frac.ofInt 2
  match kfUpdate tr.kf ![cx, cy] with
  | some kf' =>
      ({ tr with kf := kf', bbox := bbox, missed_frames := 0, hits := tr.hits + 1 }, none)
  | none => (tr, some tr.id)

/-- `tr.missed_frames += 1` (tracker.py, line 122). -/
def trMiss (tr : Track) : Track :=
  { tr with missed_frames := tr.missed_frames + 1 }

/-- `tr_center = (tr.kf.x[0], tr.kf.x[1])` (tracker.py, line 106). -/
def trCenter (tr : Track) : Frac × Frac := (tr.kf.x 0, tr.kf.x 1)

/-- A detection centre, cast to fractions. -/
def centerF (p : ℤ × ℤ) : Frac × Frac := (Frac.ofInt p.1, Frac.ofInt p.2)

/-- The square of `PeopleTracker._distance(a, b) = math.hypot(a0-b0, a1-b1)`.
All comparisons the code makes between distances, and between a distance and
`max_distance`, are embedded through squares (see the header and
`gateOK_iff_sqrt`). -/
def distSq (a b : Frac × Frac) : Frac :=
  (a.1 - b.1) * (a.1 - b.1) + (a.2 - b.2) * (a.2 - b.2)

/-- `best_d <= self.max_distance` for the true (square-rooted) distance,
expressed on the squared distance `dSq`. -/
def gateOK (maxD dSq : Frac) : Prop :=
  Frac.ofInt 0 ≤ maxD ∧ dSq ≤ maxD * maxD

instance (maxD dSq : Frac) : Decidable (gateOK maxD dSq) :=
  inferInstanceAs (Decidable (_ ∧ _))

/-- `if d < best_d: best_d = d; best_di = di` (tracker.py, lines 113–115):
the running best `(best_di, best_d)`, with `none` standing for the initial
`(None, inf)`, updated by the candidate `(di, d)`. -/
def betterOf (di : ℕ) (d : Frac) : Option (ℕ × Frac) → ℕ × Frac
  | none => (di, d)
  | some (bdi, bd) => if d < bd then (di, d) else (bdi, bd)

/-- The inner loop of the greedy matcher (tracker.py, lines 107–115):
`for di, dc in enumerate(det_centers)`, skipping already-claimed indices,
keeping the first strict minimum.  `di` counts the enumeration. -/
def innerLoop (claimed : List ℕ) (c : Frac × Frac) :
    List (ℤ × ℤ) → ℕ → Option (ℕ × Frac) → Option (ℕ × Frac)
  | [], _, best => best
  | dc :: rest, di, best =>
    if di ∈ claimed then innerLoop claimed c rest (di + 1) best
    else innerLoop claimed c rest (di + 1) (some (betterOf di (distSq c (centerF dc)) best))

/-- The outcome of processing one track in the association loop:
the track after `tr.update(...)` or `tr.missed_frames += 1`, the claimed
detection index (if any), and the Kalman-failure diagnostic (if any). -/
structure MatchEntry where
  track : Track
  matched : Option ℕ
  diag : Option ℕ
deriving DecidableEq

/-- The outer greedy association loop (tracker.py, lines 105–122): tracks in
stored order; for each, the inner loop over unclaimed detections; the match is
accepted iff `best_di is not None and best_d <= self.max_distance`, in which
case `tr.update(det_bboxes[best_di])` runs and `best_di` is claimed;
otherwise `tr.missed_frames += 1`. -/
def matchLoop (maxD : Frac) (detCenters : List (ℤ × ℤ)) (detBboxes : List Bbox) :
    List Track → List ℕ → List MatchEntry
  | [], _ => []
  | tr :: rest, claimed =>
    match innerLoop claimed (trCenter tr) detCenters 0 none with
    | some (di, d) =>
      if gateOK maxD d then
        let u := tr.updateD (detBboxes.getD di (0, 0, 0, 0))
        ⟨u.1, some di, u.2⟩ :: matchLoop maxD detCenters detBboxes rest (claimed ++ [di])
      else ⟨trMiss tr, none, none⟩ :: matchLoop maxD detCenters detBboxes rest claimed
    | none => ⟨trMiss tr, none, none⟩ :: matchLoop maxD detCenters detBboxes rest claimed

/-- Step 4 of `PeopleTracker.update` (lines 125–130): spawn a new track for
every detection index not in `matched_det_idx`, assigning and incrementing the
global `_TRACK_ID`. -/
def spawnLoop (claimed : List ℕ) : List Detection → ℕ → ℕ → List Track × ℕ
  | [], _, trackID => ([], trackID)
  | det :: rest, di, trackID =>
    if di ∈ claimed then spawnLoop claimed rest (di + 1) trackID
    else
      let s := spawnLoop claimed rest (di + 1) (trackID + 1)
      (Track.init det.bbox trackID :: s.1, s.2)

/-- The confidence-attachment scan (tracker.py, lines 146–149): for each
detection, every result record whose bbox equals the detection's bbox gets
`res["conf"] = det.get("conf", None)`. -/
def attachConfs (detections : List Detection) (results : List Result) : List Result :=
  detections.foldl
    (fun rs det =>
      rs.map (fun r => if r.bbox = det.bbox then { r with conf := det.conf } else r))
    results

/-- The `PeopleTracker` instance state: the track list and the two
constructor parameters.  The module-global `_TRACK_ID` is threaded separately
(it is shared between instances). -/
structure PeopleTracker where
  tracks : List Track
  max_distance : Frac
  max_missed : ℕ

/-- `PeopleTracker.__init__(max_distance=60.0, max_missed=10)`: empty track
list, and the module-global `_TRACK_ID` is reset to 1 (lines 73–74) whatever
its current value. -/
def PeopleTracker.init (max_distance : Frac) (max_missed : ℕ) (_trackID : ℕ) :
    PeopleTracker × ℕ :=
  (⟨[], max_distance, max_missed⟩, 1)

/-- Steps 1–3 of `PeopleTracker.update`: predict every track, then run the
greedy association against the detections' centres. -/
def PeopleTracker.frameEntries (self : PeopleTracker) (detections : List Detection) :
    List MatchEntry :=
  matchLoop self.max_distance (detections.map (·.center)) (detections.map (·.bbox))
    (self.tracks.map Track.predict) []

/-- Everything `PeopleTracker.update` produces: the mutated instance, the
module-global `_TRACK_ID` after the call, the returned result list, and the
ids for which a Kalman-failure diagnostic was logged during the call. -/
structure UpdateOut where
  tracker : PeopleTracker
  trackID : ℕ
  results : List Result
  diags : List ℕ

/-- `PeopleTracker.update(detections)` (tracker.py, lines 80–151):
predict; greedy association; spawn tracks for unclaimed detections; drop
tracks with `missed_frames > max_missed`; build result records with
`conf=None, class="person"` (`tuple(map(int, tr.bbox))` is the identity on
integer boxes); then attach confidences by the bbox-equality scan. -/
def PeopleTracker.update (self : PeopleTracker) (trackID : ℕ)
    (detections : List Detection) : UpdateOut :=
  let entries := self.frameEntries detections
  let claimed := entries.filterMap (·.matched)
  let spawned := spawnLoop claimed detections 0 trackID
  let tracks3 := entries.map (·.track) ++ spawned.1
  let tracks4 := tracks3.filter (fun t => t.missed_frames ≤ self.max_missed)
  let results0 := tracks4.map (fun t =>
    ({ id := t.id, bbox := t.bbox, conf := none, cls := "person" } : Result))
  { tracker := { self with tracks := tracks4 }
    trackID := spawned.2
    results := attachConfs detections results0
    diags := entries.filterMap (·.diag) }

/-- Feeding `n` consecutive frames with an empty detection list.  The
module-global `_TRACK_ID` is irrelevant here (no spawns); it is passed as 0. -/
def iterEmpty : ℕ → PeopleTracker → PeopleTracker
  | 0, s => s
  | n + 1, s => iterEmpty n (s.update 0 []).tracker

/-- The detections' claimed indices accumulated by the first `i` entries of
the association loop — the contents of `matched_det_idx` when entry `i` is
processed. -/
def claimedUpTo : List MatchEntry → ℕ → List ℕ
  | _, 0 => []
  | [], _ + 1 => []
  | e :: E, i + 1 => e.matched.toList ++ claimedUpTo E i

/-- The squared distance from a point `c` to the `j`-th detection centre. -/
def detDist (c : Frac × Frac) (detCenters : List (ℤ × ℤ)) (j : ℕ) : Frac :=
  distSq c (centerF (detCenters.getD j (0, 0)))

/-! ## The detector's centroid (detector.py, lines 62–70) -/

/-- `"center": ((x1 + x2) // 2, (y1 + y2) // 2)` — Python `//` is floor
division, i.e. `Int.fdiv`. -/
def detCenter : Bbox → ℤ × ℤ
  | (x1, y1, x2, y2) => (Int.fdiv (x1 + x2) 2, Int.fdiv (y1 + y2) 2)

/-- The detection record built by `PeopleDetector.detect` for a person box. -/
def PeopleDetector.mkDet (bbox : Bbox) (conf : Frac) : Detection :=
  ⟨bbox, some conf, detCenter bbox, "person"⟩

/-- The centroid as claim C9 words it: the integer midpoint with each
coordinate rounded toward zero (`Int.tdiv` truncates toward zero). -/
def centerTowardZero : Bbox → ℤ × ℤ
  | (x1, y1, x2, y2) => (Int.tdiv (x1 + x2) 2, Int.tdiv (y1 + y2) 2)

/-! ## The per-frame association property, and concrete inputs used by the
witness and counterexample theorems below -/

/-- What the spec asserts of one track's association outcome.  `claimedHere`
is the set of detection indices claimed by earlier tracks, `tr` the track
(after prediction), `e` its entry.  A matched index is in range, unclaimed,
within the gate, at minimal distance among unclaimed detections, and the
least such index (ties to the lowest index); an unmatched track has every
unclaimed detection strictly beyond the gate (and consumes nothing). -/
def entryProp (maxD : Frac) (detCenters : List (ℤ × ℤ)) (claimedHere : List ℕ)
    (tr : Track) (e : MatchEntry) : Prop :=
  (∀ di, e.matched = some di →
    di < detCenters.length ∧ di ∉ claimedHere ∧
    gateOK maxD (detDist (trCenter tr) detCenters di) ∧
    (∀ j, j < detCenters.length → j ∉ claimedHere →
      detDist (trCenter tr) detCenters di ≤ detDist (trCenter tr) detCenters j) ∧
    (∀ j, j < di → j ∉ claimedHere →
      detDist (trCenter tr) detCenters di < detDist (trCenter tr) detCenters j)) ∧
  (e.matched = none → ∀ j, j < detCenters.length → j ∉ claimedHere →
    ¬ gateOK maxD (detDist (trCenter tr) detCenters j))

def C1s : PeopleTracker := ⟨[Track.init (0, 0, 10, 10) 1], Frac.ofInt 60, 10⟩

def C1dets : List Detection :=
  [⟨(2, 0, 12, 10), some (Frac.ofInt 4 / Frac.ofInt 5), (7, 5), "person"⟩,
   ⟨(40, 0, 50, 10), some (Frac.ofInt 3 / Frac.ofInt 5), (45, 5), "person"⟩]

def mEntryDflt : MatchEntry := ⟨Track.init (0, 0, 0, 0) 0, none, none⟩

def C1e : MatchEntry := (C1s.frameEntries C1dets).getD 0 mEntryDflt

def C1tr : Track := (C1s.tracks.map Track.predict).getD 0 (Track.init (0, 0, 0, 0) 0)

def C5s : PeopleTracker := ⟨[Track.init (0, 0, 10, 10) 1], Frac.ofInt 60, 10⟩

def C5dets : List Detection :=
  [⟨(2, 0, 12, 10), some (Frac.ofInt 4 / Frac.ofInt 5), (7, 5), "person"⟩,
   ⟨(40, 0, 50, 10), some (Frac.ofInt 3 / Frac.ofInt 5), (45, 5), "person"⟩]

def C5tr : Track := (C5s.tracks.map Track.predict).getD 0 (Track.init (0, 0, 0, 0) 0)

def C4s : PeopleTracker := ⟨[Track.init (0, 0, 10, 10) 1], Frac.ofInt 60, 10⟩

def C4e : MatchEntry := (C4s.frameEntries []).getD 0 mEntryDflt

def C4t : Track := Track.init (0, 0, 10, 10) 1

def C6s : PeopleTracker := ⟨[Track.init (0, 0, 10, 10) 1], Frac.ofInt 60, 10⟩

def C6dets : List Detection :=
  [⟨(2, 0, 12, 10), some (Frac.ofInt 4 / Frac.ofInt 5), (7, 5), "person"⟩]

def C6e : MatchEntry := (C6s.frameEntries C6dets).getD 0 mEntryDflt

def C6t : Track := Track.init (0, 0, 10, 10) 1

/-- A covariance that makes the post-predict innovation covariance singular:
`P₀₀ = −501/100`, everything else 0, so after `predict` the `S` matrix has a
zero first row and `det S = 0`. -/
def C7P : Fin 4 → Fin 4 → Frac :=
  fun i j => if i = 0 ∧ j = 0 then ⟨-501, 100, by norm_num⟩ else Frac.ofInt 0

def C7t : Track :=
  ⟨3, ⟨![Frac.ofInt 0, Frac.ofInt 0, Frac.ofInt 0, Frac.ofInt 0], C7P⟩, (0, 0, 2, 2), 0, 1⟩

def C7s : PeopleTracker := ⟨[C7t], Frac.ofInt 60, 10⟩

def C7dets : List Detection :=
  [⟨(0, 0, 2, 2), some (Frac.ofInt 1 / Frac.ofInt 2), (1, 1), "person"⟩]

def C7e : MatchEntry := (C7s.frameEntries C7dets).getD 0 mEntryDflt

def C10s : PeopleTracker := ⟨[], Frac.ofInt 60, 10⟩

def C10dets : List Detection :=
  [⟨(0, 0, 10, 10), some (Frac.ofInt 1 / Frac.ofInt 2), (5, 5), "dog"⟩]

def C10r : Result :=
  ⟨1, (0, 0, 10, 10), some (Frac.ofInt 1 / Frac.ofInt 2), "person"⟩

def C2s0 : PeopleTracker := ⟨[], Frac.ofInt 60, 10⟩

def C2frame1 : List Detection :=
  [⟨(0, 0, 10, 10), some (Frac.ofInt 7 / Frac.ofInt 10), (5, 5), "person"⟩,
   ⟨(0, 0, 10, 10), some (Frac.ofInt 6 / Frac.ofInt 10), (5, 5), "person"⟩]

def C2out1 : UpdateOut := C2s0.update 1 C2frame1

def C2frame2 : List Detection :=
  [⟨(0, 0, 10, 10), some (Frac.ofInt 9 / Frac.ofInt 10), (5, 5), "person"⟩]

def C2out2 : UpdateOut := C2out1.tracker.update C2out1.trackID C2frame2

def C3detA : Detection :=
  ⟨(0, 0, 10, 10), some (Frac.ofInt 1 / Frac.ofInt 2), (5, 5), "person"⟩

def C3detFar : Detection :=
  ⟨(200, 200, 210, 210), some (Frac.ofInt 1 / Frac.ofInt 2), (205, 205), "person"⟩

def C3instA : PeopleTracker × ℕ := PeopleTracker.init (Frac.ofInt 60) 10 1

def C3outA1 : UpdateOut := C3instA.1.update C3instA.2 [C3detA]

def C3instB : PeopleTracker × ℕ := PeopleTracker.init (Frac.ofInt 60) 10 C3outA1.trackID

def C3outA2 : UpdateOut := C3outA1.tracker.update C3instB.2 [C3detFar]

def C8s : PeopleTracker := ⟨[], Frac.ofInt 60, 10⟩

/-- Malformed on both counts: inverted box coordinates and confidence 1.5. -/
def C8mal : Detection :=
  ⟨(10, 10, 0, 0), some (Frac.ofInt 3 / Frac.ofInt 2), (5, 5), "person"⟩


/-! ## Theorems -/

namespace Frac

theorem not_lt {a b : Frac} : ¬ a < b ↔ b ≤ a := Int.not_lt

theorem le_trans {a b c : Frac} (h1 : a ≤ b) (h2 : b ≤ c) : a ≤ c := by
  have ha := a.den_pos
  have hb := b.den_pos
  have hc := c.den_pos
  have h1' : a.num * b.den ≤ b.num * a.den := h1
  have h2' : b.num * c.den ≤ c.num * b.den := h2
  have t1 := mul_le_mul_of_nonneg_right h1' hc.le
  have t2 := mul_le_mul_of_nonneg_right h2' ha.le
  have t3 : a.num * c.den * b.den ≤ c.num * a.den * b.den := by nlinarith [t1, t2]
  exact le_of_mul_le_mul_right t3 hb

theorem lt_of_lt_of_le {a b c : Frac} (h1 : a < b) (h2 : b ≤ c) : a < c := by
  have ha := a.den_pos
  have hb := b.den_pos
  have hc := c.den_pos
  have h1' : a.num * b.den < b.num * a.den := h1
  have h2' : b.num * c.den ≤ c.num * b.den := h2
  have t1 := mul_lt_mul_of_pos_right h1' hc
  have t2 := mul_le_mul_of_nonneg_right h2' ha.le
  have t3 : a.num * c.den * b.den < c.num * a.den * b.den := by nlinarith [t1, t2]
  exact lt_of_mul_lt_mul_right t3 hb.le

theorem lt_of_le_of_lt {a b c : Frac} (h1 : a ≤ b) (h2 : b < c) : a < c := by
  have ha := a.den_pos
  have hb := b.den_pos
  have hc := c.den_pos
  have h1' : a.num * b.den ≤ b.num * a.den := h1
  have h2' : b.num * c.den < c.num * b.den := h2
  have t1 := mul_le_mul_of_nonneg_right h1' hc.le
  have t2 := mul_lt_mul_of_pos_right h2' ha
  have t3 : a.num * c.den * b.den < c.num * a.den * b.den := by nlinarith [t1, t2]
  exact lt_of_mul_lt_mul_right t3 hb.le

theorem le_of_lt {a b : Frac} (h : a < b) : a ≤ b := Int.le_of_lt h

theorem den_ne_zero_q (q : Frac) : (q.den : ℚ) ≠ 0 := by
  exact_mod_cast q.den_pos.ne'

theorem toRat_ofInt (n : ℤ) : (ofInt n).toRat = n := by
  unfold toRat ofInt; simp

theorem toRat_add (a b : Frac) : (a + b).toRat = a.toRat + b.toRat := by
  show ((a.num * b.den + b.num * a.den : ℤ) : ℚ) / ((a.den * b.den : ℤ) : ℚ) = _
  unfold toRat
  have ha := a.den_ne_zero_q
  have hb := b.den_ne_zero_q
  field_simp

theorem toRat_sub (a b : Frac) : (a - b).toRat = a.toRat - b.toRat := by
  show ((a.num * b.den - b.num * a.den : ℤ) : ℚ) / ((a.den * b.den : ℤ) : ℚ) = _
  unfold toRat
  have ha := a.den_ne_zero_q
  have hb := b.den_ne_zero_q
  field_simp
  ring

theorem toRat_mul (a b : Frac) : (a * b).toRat = a.toRat * b.toRat := by
  show ((a.num * b.num : ℤ) : ℚ) / ((a.den * b.den : ℤ) : ℚ) = _
  unfold toRat
  have ha := a.den_ne_zero_q
  have hb := b.den_ne_zero_q
  field_simp

theorem toRat_neg (a : Frac) : (-a).toRat = -a.toRat := by
  show ((-a.num : ℤ) : ℚ) / (a.den : ℚ) = _
  unfold toRat
  push_cast
  ring

theorem toRat_div (a b : Frac) (hb : b.num ≠ 0) : (a / b).toRat = a.toRat / b.toRat := by
  show (Frac.div a b).toRat = _
  unfold Frac.div toRat
  have ha := a.den_ne_zero_q
  have hbd := b.den_ne_zero_q
  rcases lt_trichotomy b.num 0 with h | h | h
  · rw [dif_neg (by omega), dif_pos h]
    have hbn : (b.num : ℚ) ≠ 0 := by exact_mod_cast hb
    push_cast
    field_simp
  · exact absurd h hb
  · rw [dif_pos h]
    have hbn : (b.num : ℚ) ≠ 0 := by exact_mod_cast hb
    push_cast
    field_simp

theorem le_iff_toRat (a b : Frac) : a ≤ b ↔ a.toRat ≤ b.toRat := by
  have ha := a.den_pos
  have hb := b.den_pos
  unfold toRat
  rw [div_le_div_iff₀ (by exact_mod_cast ha) (by exact_mod_cast hb)]
  constructor
  · intro h; exact_mod_cast h
  · intro h; exact_mod_cast h

theorem lt_iff_toRat (a b : Frac) : a < b ↔ a.toRat < b.toRat := by
  have ha := a.den_pos
  have hb := b.den_pos
  unfold toRat
  rw [div_lt_div_iff₀ (by exact_mod_cast ha) (by exact_mod_cast hb)]
  constructor
  · intro h; exact_mod_cast h
  · intro h; exact_mod_cast h

end Frac

/-! ## Properties of the inner (nearest-detection) loop -/

theorem Frac.le_refl (a : Frac) : a ≤ a := Int.le_refl _

theorem Frac.lt_trans {a b c : Frac} (h1 : a < b) (h2 : b < c) : a < c :=
  Frac.lt_of_lt_of_le h1 (Frac.le_of_lt h2)

theorem innerLoop_ne_none (claimed : List ℕ) (c : Frac × Frac) :
    ∀ (rest : List (ℤ × ℤ)) (di : ℕ) (b : ℕ × Frac),
      innerLoop claimed c rest di (some b) ≠ none := by
  intro rest
  induction rest with
  | nil => intro di b h; simp [innerLoop] at h
  | cons dc rest ih =>
    intro di b h
    simp only [innerLoop] at h
    by_cases hdi : di ∈ claimed
    · rw [if_pos hdi] at h; exact ih (di + 1) b h
    · rw [if_neg hdi] at h; exact ih (di + 1) _ h

theorem innerLoop_none (claimed : List ℕ) (c : Frac × Frac) :
    ∀ (rest : List (ℤ × ℤ)) (di0 : ℕ) (best : Option (ℕ × Frac)),
      innerLoop claimed c rest di0 best = none →
      best = none ∧ ∀ m, m < rest.length → di0 + m ∈ claimed := by
  intro rest
  induction rest with
  | nil =>
    intro di0 best h
    refine ⟨by simpa [innerLoop] using h, ?_⟩
    intro m hm
    simp at hm
  | cons dc rest ih =>
    intro di0 best h
    simp only [innerLoop] at h
    by_cases hdi : di0 ∈ claimed
    · rw [if_pos hdi] at h
      obtain ⟨hb, hall⟩ := ih (di0 + 1) best h
      refine ⟨hb, ?_⟩
      intro m hm
      cases m with
      | zero => simpa using hdi
      | succ m' =>
        have h' := hall m' (by simpa [Nat.succ_lt_succ_iff] using hm)
        rwa [show di0 + 1 + m' = di0 + (m' + 1) by omega] at h'
    · rw [if_neg hdi] at h
      exact absurd h (innerLoop_ne_none claimed c rest (di0 + 1) _)

theorem innerLoop_some_mem (claimed : List ℕ) (c : Frac × Frac) :
    ∀ (rest : List (ℤ × ℤ)) (di0 : ℕ) (best : Option (ℕ × Frac)) (ri : ℕ) (rd : Frac),
      innerLoop claimed c rest di0 best = some (ri, rd) →
      best = some (ri, rd) ∨
        ∃ m, m < rest.length ∧ ri = di0 + m ∧ ri ∉ claimed ∧
          rd = distSq c (centerF (rest.getD m (0, 0))) := by
  intro rest
  induction rest with
  | nil =>
    intro di0 best ri rd h
    exact Or.inl (by simpa [innerLoop] using h)
  | cons dc rest ih =>
    intro di0 best ri rd h
    simp only [innerLoop] at h
    by_cases hdi : di0 ∈ claimed
    · rw [if_pos hdi] at h
      rcases ih (di0 + 1) best ri rd h with hb | ⟨m, hm, hri, hnc, hd⟩
      · exact Or.inl hb
      · exact Or.inr ⟨m + 1, by simp only [List.length_cons]; omega, by omega, hnc,
          by simpa [List.getD_cons_succ] using hd⟩
    · rw [if_neg hdi] at h
      rcases ih (di0 + 1) _ ri rd h with hb | ⟨m, hm, hri, hnc, hd⟩
      · cases hbest : best with
        | none =>
          rw [hbest] at hb
          simp only [betterOf] at hb
          injection hb with hb'
          injection hb' with h1 h2
          exact Or.inr ⟨0, by simp only [List.length_cons]; omega, by omega,
            by rwa [← h1], by simp [← h2, List.getD_cons_zero]⟩
        | some p =>
          obtain ⟨bdi, bd⟩ := p
          rw [hbest] at hb
          simp only [betterOf] at hb
          by_cases hlt : distSq c (centerF dc) < bd
          · rw [if_pos hlt] at hb
            injection hb with hb'
            injection hb' with h1 h2
            exact Or.inr ⟨0, by simp only [List.length_cons]; omega, by omega,
              by rwa [← h1], by simp [← h2, List.getD_cons_zero]⟩
          · rw [if_neg hlt] at hb
            injection hb with hb'
            injection hb' with h1 h2
            exact Or.inl (by rw [h1, h2])
      · exact Or.inr ⟨m + 1, by simp only [List.length_cons]; omega, by omega, hnc,
          by simpa [List.getD_cons_succ] using hd⟩

theorem innerLoop_some_min (claimed : List ℕ) (c : Frac × Frac) :
    ∀ (rest : List (ℤ × ℤ)) (di0 : ℕ) (best : Option (ℕ × Frac)) (ri : ℕ) (rd : Frac),
      innerLoop claimed c rest di0 best = some (ri, rd) →
      (∀ bdi bd, best = some (bdi, bd) → rd ≤ bd) ∧
      (∀ m, m < rest.length → di0 + m ∉ claimed →
        rd ≤ distSq c (centerF (rest.getD m (0, 0)))) := by
  intro rest
  induction rest with
  | nil =>
    intro di0 best ri rd h
    have hb : best = some (ri, rd) := by simpa [innerLoop] using h
    constructor
    · intro bdi bd h'
      rw [hb] at h'
      injection h' with h''
      injection h'' with h1 h2
      rw [h2]
      exact Frac.le_refl bd
    · intro m hm
      simp at hm
  | cons dc rest ih =>
    intro di0 best ri rd h
    simp only [innerLoop] at h
    by_cases hdi : di0 ∈ claimed
    · rw [if_pos hdi] at h
      obtain ⟨hb, hrest⟩ := ih (di0 + 1) best ri rd h
      refine ⟨hb, ?_⟩
      intro m hm hnc
      cases m with
      | zero => exact absurd (by simpa using hdi) hnc
      | succ m' =>
        have h' := hrest m' (by simpa [Nat.succ_lt_succ_iff] using hm)
          (by rwa [show di0 + 1 + m' = di0 + (m' + 1) by omega])
        simpa [List.getD_cons_succ] using h'
    · rw [if_neg hdi] at h
      obtain ⟨hb, hrest⟩ := ih (di0 + 1) _ ri rd h
      have hbet : rd ≤ (betterOf di0 (distSq c (centerF dc)) best).2 := by
        have := hb (betterOf di0 (distSq c (centerF dc)) best).1
          (betterOf di0 (distSq c (centerF dc)) best).2
        exact this rfl
      constructor
      · intro bdi bd hbest
        rw [hbest] at hbet
        simp only [betterOf] at hbet
        by_cases hlt : distSq c (centerF dc) < bd
        · rw [if_pos hlt] at hbet
          exact Frac.le_trans hbet (Frac.le_of_lt hlt)
        · rwa [if_neg hlt] at hbet
      · intro m hm hnc
        cases m with
        | zero =>
          simp only [List.getD_cons_zero]
          cases hbest : best with
          | none => rw [hbest] at hbet; simpa [betterOf] using hbet
          | some p =>
            obtain ⟨bdi, bd⟩ := p
            rw [hbest] at hbet
            simp only [betterOf] at hbet
            by_cases hlt : distSq c (centerF dc) < bd
            · rwa [if_pos hlt] at hbet
            · rw [if_neg hlt] at hbet
              exact Frac.le_trans hbet (Frac.not_lt.mp hlt)
        | succ m' =>
          have h' := hrest m' (by simpa [Nat.succ_lt_succ_iff] using hm)
            (by rwa [show di0 + 1 + m' = di0 + (m' + 1) by omega])
          simpa [List.getD_cons_succ] using h'

theorem innerLoop_some_improve (claimed : List ℕ) (c : Frac × Frac) :
    ∀ (rest : List (ℤ × ℤ)) (di0 : ℕ) (best : Option (ℕ × Frac)) (ri : ℕ) (rd : Frac)
      (bdi : ℕ) (bd : Frac),
      innerLoop claimed c rest di0 best = some (ri, rd) →
      best = some (bdi, bd) → (ri = bdi ∧ rd = bd) ∨ rd < bd := by
  intro rest
  induction rest with
  | nil =>
    intro di0 best ri rd bdi bd h hbest
    rw [hbest] at h
    have h' : some (bdi, bd) = some (ri, rd) := by simpa [innerLoop] using h
    injection h' with h''
    injection h'' with h1 h2
    exact Or.inl ⟨h1.symm, h2.symm⟩
  | cons dc rest ih =>
    intro di0 best ri rd bdi bd h hbest
    simp only [innerLoop] at h
    by_cases hdi : di0 ∈ claimed
    · rw [if_pos hdi] at h
      exact ih (di0 + 1) best ri rd bdi bd h hbest
    · rw [if_neg hdi] at h
      rw [hbest] at h
      simp only [betterOf] at h
      by_cases hlt : distSq c (centerF dc) < bd
      · rw [if_pos hlt] at h
        rcases ih (di0 + 1) _ ri rd di0 (distSq c (centerF dc)) h rfl with ⟨_, hrd⟩ | hrd
        · exact Or.inr (by rw [hrd]; exact hlt)
        · exact Or.inr (Frac.lt_trans hrd hlt)
      · rw [if_neg hlt] at h
        exact ih (di0 + 1) _ ri rd bdi bd h rfl

theorem innerLoop_some_first (claimed : List ℕ) (c : Frac × Frac) :
    ∀ (rest : List (ℤ × ℤ)) (di0 : ℕ) (best : Option (ℕ × Frac)) (ri : ℕ) (rd : Frac),
      (∀ bdi bd, best = some (bdi, bd) → bdi < di0) →
      innerLoop claimed c rest di0 best = some (ri, rd) →
      ∀ m, m < rest.length → di0 + m ∉ claimed → di0 + m < ri →
        rd < distSq c (centerF (rest.getD m (0, 0))) := by
  intro rest
  induction rest with
  | nil =>
    intro di0 best ri rd _ _ m hm
    simp at hm
  | cons dc rest ih =>
    intro di0 best ri rd hb h m hm hnc hlt
    simp only [innerLoop] at h
    by_cases hdi : di0 ∈ claimed
    · rw [if_pos hdi] at h
      cases m with
      | zero => exact absurd (by simpa using hdi) hnc
      | succ m' =>
        have h' := ih (di0 + 1) best ri rd
          (fun bdi bd hbe => Nat.lt_succ_of_lt (hb bdi bd hbe)) h m'
          (by simpa [Nat.succ_lt_succ_iff] using hm)
          (by rwa [show di0 + 1 + m' = di0 + (m' + 1) by omega])
          (by omega)
        simpa [List.getD_cons_succ] using h'
    · rw [if_neg hdi] at h
      have hb' : ∀ bdi bd,
          some (betterOf di0 (distSq c (centerF dc)) best) = some (bdi, bd) →
          bdi < di0 + 1 := by
        intro bdi bd he
        injection he with he'
        cases hbest : best with
        | none =>
          rw [hbest] at he'
          simp only [betterOf] at he'
          injection he' with h1 _
          omega
        | some p =>
          obtain ⟨pdi, pd⟩ := p
          rw [hbest] at he'
          simp only [betterOf] at he'
          by_cases hl : distSq c (centerF dc) < pd
          · rw [if_pos hl] at he'
            injection he' with h1 _
            omega
          · rw [if_neg hl] at he'
            injection he' with h1 _
            have := hb pdi pd hbest
            omega
      cases m with
      | zero =>
        simp only [List.getD_cons_zero]
        rcases innerLoop_some_improve claimed c rest (di0 + 1) _ ri rd
            (betterOf di0 (distSq c (centerF dc)) best).1
            (betterOf di0 (distSq c (centerF dc)) best).2 h rfl with ⟨h1, _⟩ | hstr
        · have := hb' (betterOf di0 (distSq c (centerF dc)) best).1
            (betterOf di0 (distSq c (centerF dc)) best).2 rfl
          omega
        · have hle : (betterOf di0 (distSq c (centerF dc)) best).2 ≤
              distSq c (centerF dc) := by
            cases hbest : best with
            | none => simp [betterOf]; exact Frac.le_refl _
            | some p =>
              obtain ⟨pdi, pd⟩ := p
              simp only [betterOf]
              by_cases hl : distSq c (centerF dc) < pd
              · rw [if_pos hl]; exact Frac.le_refl _
              · rw [if_neg hl]; exact Frac.not_lt.mp hl
          exact Frac.lt_of_lt_of_le hstr hle
      | succ m' =>
        have h' := ih (di0 + 1) _ ri rd hb' h m'
          (by simpa [Nat.succ_lt_succ_iff] using hm)
          (by rwa [show di0 + 1 + m' = di0 + (m' + 1) by omega])
          (by omega)
        simpa [List.getD_cons_succ] using h'

/-- The inner loop as called by the matcher (`di` from 0, `best` from
`(None, inf)`), when it finds a best candidate: the candidate is an unclaimed
in-range index at its own distance, no unclaimed detection is strictly closer,
and every unclaimed detection with a smaller index is strictly farther. -/
theorem innerLoop_top_some (claimed : List ℕ) (c : Frac × Frac)
    (centers : List (ℤ × ℤ)) (ri : ℕ) (rd : Frac)
    (h : innerLoop claimed c centers 0 none = some (ri, rd)) :
    ri < centers.length ∧ ri ∉ claimed ∧ rd = detDist c centers ri ∧
    (∀ j, j < centers.length → j ∉ claimed → rd ≤ detDist c centers j) ∧
    (∀ j, j < ri → j ∉ claimed → rd < detDist c centers j) := by
  rcases innerLoop_some_mem claimed c centers 0 none ri rd h with hb | ⟨m, hm, hri, hnc, hd⟩
  · exact absurd hb (by simp)
  obtain ⟨-, hmin⟩ := innerLoop_some_min claimed c centers 0 none ri rd h
  have hfirst := innerLoop_some_first claimed c centers 0 none ri rd (by simp) h
  have hlen : ri < centers.length := by omega
  refine ⟨hlen, hnc, ?_, ?_, ?_⟩
  · rw [detDist, hri]
    simpa using hd
  · intro j hj hjnc
    have := hmin j hj (by simpa using hjnc)
    simpa [detDist] using this
  · intro j hj hjnc
    have := hfirst j (by omega) (by simpa using hjnc) (by omega)
    simpa [detDist] using this

/-- The inner loop finds no candidate exactly when every detection index is
already claimed. -/
theorem innerLoop_top_none (claimed : List ℕ) (c : Frac × Frac)
    (centers : List (ℤ × ℤ))
    (h : innerLoop claimed c centers 0 none = none) :
    ∀ j, j < centers.length → j ∈ claimed := by
  obtain ⟨-, hall⟩ := innerLoop_none claimed c centers 0 none h
  intro j hj
  simpa using hall j hj

/-! ## Properties of the outer (per-track) association loop -/

theorem claimedUpTo_zero (E : List MatchEntry) : claimedUpTo E 0 = [] := by
  cases E <;> rfl

theorem claimedUpTo_cons_succ (e : MatchEntry) (E : List MatchEntry) (i : ℕ) :
    claimedUpTo (e :: E) (i + 1) = e.matched.toList ++ claimedUpTo E i := rfl

theorem claimedUpTo_mem (k : ℕ) :
    ∀ (E : List MatchEntry) (i : ℕ), k ∈ claimedUpTo E i →
      ∃ j e, j < i ∧ E[j]? = some e ∧ e.matched = some k := by
  intro E
  induction E with
  | nil =>
    intro i hk
    cases i <;> simp [claimedUpTo] at hk
  | cons e E ih =>
    intro i hk
    cases i with
    | zero => simp [claimedUpTo_zero] at hk
    | succ i' =>
      rw [claimedUpTo_cons_succ] at hk
      rcases List.mem_append.mp hk with hk | hk
      · refine ⟨0, e, by omega, by simp, ?_⟩
        cases hm : e.matched with
        | none => rw [hm] at hk; simp [Option.toList] at hk
        | some k' =>
          rw [hm] at hk
          simp only [Option.toList] at hk
          simp at hk
          rw [hk]
      · obtain ⟨j, e', hj, hE, hm⟩ := ih i' hk
        exact ⟨j + 1, e', by omega, by simpa using hE, hm⟩

theorem matchLoop_length (maxD : Frac) (cs : List (ℤ × ℤ)) (bs : List Bbox) :
    ∀ (tracks : List Track) (claimed : List ℕ),
      (matchLoop maxD cs bs tracks claimed).length = tracks.length := by
  intro tracks
  induction tracks with
  | nil => intro claimed; rfl
  | cons tr0 rest ih =>
    intro claimed
    cases h : innerLoop claimed (trCenter tr0) cs 0 none with
    | some p =>
      obtain ⟨di, d⟩ := p
      by_cases hg : gateOK maxD d
      · simp only [matchLoop, h]
        rw [if_pos hg]
        simp [ih]
      · simp only [matchLoop, h]
        rw [if_neg hg]
        simp [ih]
    | none =>
      simp only [matchLoop, h]
      simp [ih]

/-- How each entry of the association loop is built from its track: an
unmatched track gets `missed_frames += 1`; a matched track gets
`tr.update(det_bboxes[best_di])` (with its internal `try/except`). -/
theorem matchLoop_shape (maxD : Frac) (cs : List (ℤ × ℤ)) (bs : List Bbox) :
    ∀ (tracks : List Track) (claimed0 : List ℕ) (i : ℕ) (e : MatchEntry) (tr : Track),
      (matchLoop maxD cs bs tracks claimed0)[i]? = some e →
      tracks[i]? = some tr →
      (e.matched = none ∧ e.track = trMiss tr ∧ e.diag = none) ∨
      (∃ di, e.matched = some di ∧
        e.track = (tr.updateD (bs.getD di (0, 0, 0, 0))).1 ∧
        e.diag = (tr.updateD (bs.getD di (0, 0, 0, 0))).2) := by
  intro tracks
  induction tracks with
  | nil => intro claimed0 i e tr he _; simp [matchLoop] at he
  | cons tr0 rest ih =>
    intro claimed0 i e tr he htr
    cases h : innerLoop claimed0 (trCenter tr0) cs 0 none with
    | some p =>
      obtain ⟨di, d⟩ := p
      by_cases hg : gateOK maxD d
      · have hML : matchLoop maxD cs bs (tr0 :: rest) claimed0 =
            ⟨(tr0.updateD (bs.getD di (0, 0, 0, 0))).1, some di,
              (tr0.updateD (bs.getD di (0, 0, 0, 0))).2⟩ ::
              matchLoop maxD cs bs rest (claimed0 ++ [di]) := by
          simp only [matchLoop, h]
          rw [if_pos hg]
        rw [hML] at he
        cases i with
        | zero =>
          simp only [List.getElem?_cons_zero] at he
          injection he with he
          simp only [List.getElem?_cons_zero] at htr
          injection htr with htr
          subst he; subst htr
          exact Or.inr ⟨di, rfl, rfl, rfl⟩
        | succ i' =>
          simp only [List.getElem?_cons_succ] at he htr
          exact ih (claimed0 ++ [di]) i' e tr he htr
      · have hML : matchLoop maxD cs bs (tr0 :: rest) claimed0 =
            ⟨trMiss tr0, none, none⟩ :: matchLoop maxD cs bs rest claimed0 := by
          simp only [matchLoop, h]
          rw [if_neg hg]
        rw [hML] at he
        cases i with
        | zero =>
          simp only [List.getElem?_cons_zero] at he
          injection he with he
          simp only [List.getElem?_cons_zero] at htr
          injection htr with htr
          subst he; subst htr
          exact Or.inl ⟨rfl, rfl, rfl⟩
        | succ i' =>
          simp only [List.getElem?_cons_succ] at he htr
          exact ih claimed0 i' e tr he htr
    | none =>
      have hML : matchLoop maxD cs bs (tr0 :: rest) claimed0 =
          ⟨trMiss tr0, none, none⟩ :: matchLoop maxD cs bs rest claimed0 := by
        simp only [matchLoop, h]
      rw [hML] at he
      cases i with
      | zero =>
        simp only [List.getElem?_cons_zero] at he
        injection he with he
        simp only [List.getElem?_cons_zero] at htr
        injection htr with htr
        subst he; subst htr
        exact Or.inl ⟨rfl, rfl, rfl⟩
      | succ i' =>
        simp only [List.getElem?_cons_succ] at he htr
        exact ih claimed0 i' e tr he htr

/-- The central association lemma: every entry of the greedy loop satisfies
`entryProp` with respect to the detections claimed before it. -/
theorem matchLoop_spec (maxD : Frac) (cs : List (ℤ × ℤ)) (bs : List Bbox) :
    ∀ (tracks : List Track) (claimed0 : List ℕ) (i : ℕ) (e : MatchEntry) (tr : Track),
      (matchLoop maxD cs bs tracks claimed0)[i]? = some e →
      tracks[i]? = some tr →
      entryProp maxD cs
        (claimed0 ++ claimedUpTo (matchLoop maxD cs bs tracks claimed0) i) tr e := by
  intro tracks
  induction tracks with
  | nil => intro claimed0 i e tr he _; simp [matchLoop] at he
  | cons tr0 rest ih =>
    intro claimed0 i e tr he htr
    cases h : innerLoop claimed0 (trCenter tr0) cs 0 none with
    | some p =>
      obtain ⟨di, d⟩ := p
      obtain ⟨hlen, hnc, hd, hmin, hfirst⟩ := innerLoop_top_some claimed0 _ cs di d h
      by_cases hg : gateOK maxD d
      · have hML : matchLoop maxD cs bs (tr0 :: rest) claimed0 =
            ⟨(tr0.updateD (bs.getD di (0, 0, 0, 0))).1, some di,
              (tr0.updateD (bs.getD di (0, 0, 0, 0))).2⟩ ::
              matchLoop maxD cs bs rest (claimed0 ++ [di]) := by
          simp only [matchLoop, h]
          rw [if_pos hg]
        rw [hML] at he ⊢
        cases i with
        | zero =>
          simp only [List.getElem?_cons_zero] at he
          injection he with he
          simp only [List.getElem?_cons_zero] at htr
          injection htr with htr
          subst he; subst htr
          rw [claimedUpTo_zero, List.append_nil]
          constructor
          · intro di' hdi'
            simp only at hdi'
            injection hdi' with hdi'
            subst hdi'
            rw [← hd]
            exact ⟨hlen, hnc, hg, fun j hj hjnc => hmin j hj hjnc,
              fun j hj hjnc => hfirst j hj hjnc⟩
          · intro hnone
            simp at hnone
        | succ i' =>
          simp only [List.getElem?_cons_succ] at he htr
          have hIH := ih (claimed0 ++ [di]) i' e tr he htr
          rw [claimedUpTo_cons_succ]
          simpa [List.append_assoc] using hIH
      · have hML : matchLoop maxD cs bs (tr0 :: rest) claimed0 =
            ⟨trMiss tr0, none, none⟩ :: matchLoop maxD cs bs rest claimed0 := by
          simp only [matchLoop, h]
          rw [if_neg hg]
        rw [hML] at he ⊢
        cases i with
        | zero =>
          simp only [List.getElem?_cons_zero] at he
          injection he with he
          simp only [List.getElem?_cons_zero] at htr
          injection htr with htr
          subst he; subst htr
          rw [claimedUpTo_zero, List.append_nil]
          constructor
          · intro di' hdi'
            simp at hdi'
          · intro _ j hj hjnc hgj
            apply hg
            have hle := hmin j hj hjnc
            exact ⟨hgj.1, Frac.le_trans hle hgj.2⟩
        | succ i' =>
          simp only [List.getElem?_cons_succ] at he htr
          have hIH := ih claimed0 i' e tr he htr
          rw [claimedUpTo_cons_succ]
          simpa using hIH
    | none =>
      have hML : matchLoop maxD cs bs (tr0 :: rest) claimed0 =
          ⟨trMiss tr0, none, none⟩ :: matchLoop maxD cs bs rest claimed0 := by
        simp only [matchLoop, h]
      rw [hML] at he ⊢
      cases i with
      | zero =>
        simp only [List.getElem?_cons_zero] at he
        injection he with he
        simp only [List.getElem?_cons_zero] at htr
        injection htr with htr
        subst he; subst htr
        rw [claimedUpTo_zero, List.append_nil]
        constructor
        · intro di' hdi'
          simp at hdi'
        · intro _ j hj hjnc
          exact absurd (innerLoop_top_none claimed0 _ cs h j hj) hjnc
      | succ i' =>
        simp only [List.getElem?_cons_succ] at he htr
        have hIH := ih claimed0 i' e tr he htr
        rw [claimedUpTo_cons_succ]
        simpa using hIH

/-! ## Plumbing lemmas for `PeopleTracker.update` -/

/-- `Track.update` either succeeds — Kalman state corrected, `bbox` set to the
measured box, `missed_frames` reset, `hits` incremented — or the caught
exception leaves the track exactly as it was and logs the track's id. -/
theorem Track.updateD_cases (tr : Track) (b : Bbox) :
    ((tr.updateD b).2 = none ∧ (tr.updateD b).1.bbox = b ∧
      (tr.updateD b).1.missed_frames = 0 ∧ (tr.updateD b).1.hits = tr.hits + 1 ∧
      (tr.updateD b).1.id = tr.id) ∨
    ((tr.updateD b).2 = some tr.id ∧ (tr.updateD b).1 = tr) := by
  obtain ⟨x1, y1, x2, y2⟩ := b
  simp only [Track.updateD]
  cases kfUpdate tr.kf ![Frac.ofInt (x1 + x2) / Frac.ofInt 2,
      Frac.ofInt (y1 + y2) / Frac.ofInt 2] with
  | none => exact Or.inr ⟨rfl, rfl⟩
  | some kf' => exact Or.inl ⟨rfl, rfl, rfl, rfl, rfl⟩

theorem frameEntries_length (s : PeopleTracker) (dets : List Detection) :
    (s.frameEntries dets).length = s.tracks.length := by
  unfold PeopleTracker.frameEntries
  rw [matchLoop_length]
  simp

theorem frameEntries_spec (s : PeopleTracker) (dets : List Detection)
    (i : ℕ) (e : MatchEntry) (tr : Track)
    (he : (s.frameEntries dets)[i]? = some e)
    (htr : (s.tracks.map Track.predict)[i]? = some tr) :
    entryProp s.max_distance (dets.map (·.center))
      (claimedUpTo (s.frameEntries dets) i) tr e := by
  unfold PeopleTracker.frameEntries at he ⊢
  have h := matchLoop_spec s.max_distance (dets.map (·.center)) (dets.map (·.bbox))
    (s.tracks.map Track.predict) [] i e tr he htr
  simpa using h

theorem frameEntries_shape (s : PeopleTracker) (dets : List Detection)
    (i : ℕ) (e : MatchEntry) (tr : Track)
    (he : (s.frameEntries dets)[i]? = some e)
    (htr : (s.tracks.map Track.predict)[i]? = some tr) :
    (e.matched = none ∧ e.track = trMiss tr ∧ e.diag = none) ∨
    (∃ di, e.matched = some di ∧
      e.track = (tr.updateD ((dets.map (·.bbox)).getD di (0, 0, 0, 0))).1 ∧
      e.diag = (tr.updateD ((dets.map (·.bbox)).getD di (0, 0, 0, 0))).2) := by
  unfold PeopleTracker.frameEntries at he
  have h := matchLoop_shape s.max_distance (dets.map (·.center)) (dets.map (·.bbox))
    (s.tracks.map Track.predict) [] i e tr he htr
  exact h

/-- `Track.predict` does not touch `id`, `bbox`, `missed_frames` or `hits`. -/
theorem Track.predict_fields (tr : Track) :
    tr.predict.id = tr.id ∧ tr.predict.bbox = tr.bbox ∧
    tr.predict.missed_frames = tr.missed_frames ∧ tr.predict.hits = tr.hits :=
  ⟨rfl, rfl, rfl, rfl⟩

/-- The confidence-attachment scan rewrites only `conf`: the sequence of
`(id, bbox, class)` triples of the result list is untouched. -/
theorem attachConfs_map_fields (dets : List Detection) :
    ∀ rs : List Result,
      (attachConfs dets rs).map (fun r => (r.id, r.bbox, r.cls)) =
        rs.map (fun r => (r.id, r.bbox, r.cls)) := by
  induction dets with
  | nil => intro rs; rfl
  | cons det dets ih =>
    intro rs
    show (attachConfs dets
      (rs.map (fun r => if r.bbox = det.bbox then { r with conf := det.conf } else r))).map _ = _
    rw [ih, List.map_map]
    congr 1
    funext r
    by_cases hb : r.bbox = det.bbox <;> simp [hb]

theorem attachConfs_mem (dets : List Detection) :
    ∀ (rs : List Result) (r : Result), r ∈ attachConfs dets rs →
      ∃ r0 ∈ rs, r.id = r0.id ∧ r.bbox = r0.bbox ∧ r.cls = r0.cls := by
  induction dets with
  | nil => intro rs r hr; exact ⟨r, hr, rfl, rfl, rfl⟩
  | cons det dets ih =>
    intro rs r hr
    have hr' : r ∈ attachConfs dets
        (rs.map (fun x => if x.bbox = det.bbox then { x with conf := det.conf } else x)) := hr
    obtain ⟨r1, hr1, hid, hbb, hcls⟩ := ih _ r hr'
    obtain ⟨r0, hr0, hr0eq⟩ := List.mem_map.mp hr1
    refine ⟨r0, hr0, ?_, ?_, ?_⟩ <;>
      by_cases hb : r0.bbox = det.bbox <;>
        simp [← hr0eq, hb] at hid hbb hcls ⊢ <;> simp [hid, hbb, hcls]

theorem spawnLoop_mem (claimed : List ℕ) :
    ∀ (dets : List Detection) (di0 t0 : ℕ) (t' : Track),
      t' ∈ (spawnLoop claimed dets di0 t0).1 →
      ∃ det ∈ dets, ∃ n, t' = Track.init det.bbox n := by
  intro dets
  induction dets with
  | nil => intro di0 t0 t' h; simp [spawnLoop] at h
  | cons det dets ih =>
    intro di0 t0 t' h
    simp only [spawnLoop] at h
    by_cases hdi : di0 ∈ claimed
    · rw [if_pos hdi] at h
      obtain ⟨d, hd, n, hn⟩ := ih (di0 + 1) t0 t' h
      exact ⟨d, List.mem_cons_of_mem det hd, n, hn⟩
    · rw [if_neg hdi] at h
      rcases List.mem_cons.mp h with h | h
      · exact ⟨det, List.mem_cons_self det dets, t0, h⟩
      · obtain ⟨d, hd, n, hn⟩ := ih (di0 + 1) (t0 + 1) t' h
        exact ⟨d, List.mem_cons_of_mem det hd, n, hn⟩

/-- With no detections, the association loop marks every track as missed. -/
theorem matchLoop_no_dets (maxD : Frac) (bs : List Bbox) :
    ∀ (tracks : List Track) (claimed : List ℕ),
      matchLoop maxD [] bs tracks claimed =
        tracks.map (fun tr => ⟨trMiss tr, none, none⟩) := by
  intro tracks
  induction tracks with
  | nil => intro claimed; rfl
  | cons tr0 rest ih =>
    intro claimed
    show matchLoop maxD [] bs (tr0 :: rest) claimed = _
    simp only [matchLoop, innerLoop]
    rw [ih claimed]
    rfl

/-- A frame with an empty detection list: predict, increment every
`missed_frames`, prune; nothing is spawned. -/
theorem update_no_dets_tracks (s : PeopleTracker) (tid : ℕ) :
    (s.update tid []).tracker.tracks =
      (s.tracks.map (fun t => trMiss t.predict)).filter
        (fun t => t.missed_frames ≤ s.max_missed) := by
  show ((s.frameEntries []).map (·.track) ++ (spawnLoop _ [] 0 tid).1).filter _ = _
  unfold PeopleTracker.frameEntries
  simp only [List.map_nil]
  rw [matchLoop_no_dets]
  simp [List.map_map, spawnLoop]
  rfl

theorem update_max_missed (s : PeopleTracker) (tid : ℕ) (dets : List Detection) :
    (s.update tid dets).tracker.max_missed = s.max_missed := rfl

theorem update_max_distance (s : PeopleTracker) (tid : ℕ) (dets : List Detection) :
    (s.update tid dets).tracker.max_distance = s.max_distance := rfl

/-- Every track in the post-frame state passed the `missed_frames` filter. -/
theorem update_tracks_missed_le (s : PeopleTracker) (tid : ℕ) (dets : List Detection)
    (t : Track) (ht : t ∈ (s.update tid dets).tracker.tracks) :
    t.missed_frames ≤ s.max_missed := by
  have := List.of_mem_filter ht
  simpa using this

/-- Every track in the post-frame state is an association-loop output or a
freshly spawned track. -/
theorem update_tracks_sub (s : PeopleTracker) (tid : ℕ) (dets : List Detection)
    (t : Track) (ht : t ∈ (s.update tid dets).tracker.tracks) :
    t ∈ (s.frameEntries dets).map (·.track) ∨
    t ∈ (spawnLoop ((s.frameEntries dets).filterMap (·.matched)) dets 0 tid).1 := by
  have hmem := List.mem_of_mem_filter ht
  exact List.mem_append.mp hmem

/-- An association-loop output that passes the filter is in the post-frame
state. -/
theorem update_tracks_of_entry (s : PeopleTracker) (tid : ℕ) (dets : List Detection)
    (e : MatchEntry) (he : e ∈ s.frameEntries dets)
    (hmf : e.track.missed_frames ≤ s.max_missed) :
    e.track ∈ (s.update tid dets).tracker.tracks := by
  apply List.mem_filter_of_mem
  · exact List.mem_append_left _ (List.mem_map_of_mem (·.track) he)
  · simpa using hmf

theorem claimedUpTo_succ :
    ∀ (E : List MatchEntry) (i : ℕ) (e : MatchEntry), E[i]? = some e →
      claimedUpTo E (i + 1) = claimedUpTo E i ++ e.matched.toList := by
  intro E
  induction E with
  | nil => intro i e he; simp at he
  | cons e0 E ih =>
    intro i e he
    cases i with
    | zero =>
      simp only [List.getElem?_cons_zero] at he
      injection he with he
      subst he
      rw [claimedUpTo_cons_succ, claimedUpTo_zero, claimedUpTo_zero]
      simp
    | succ i' =>
      simp only [List.getElem?_cons_succ] at he
      rw [claimedUpTo_cons_succ, claimedUpTo_cons_succ, ih i' e he, List.append_assoc]

/-! ## The claims -/

/-- C1: per frame, the track–detection association is the greedy one: entries
are in bijection with the tracks in stored order; for each track, among the
detections not yet claimed this frame the selected one minimises the distance
between the track's predicted centroid and the detection centroid, ties going
to the lowest index; the match is accepted only within the `max_distance`
gate, and the claimed detection is never reused by a later track (its index
joins `claimedUpTo`); an unmatched track has all unclaimed detections beyond
the gate and consumes nothing. -/
theorem assoc_greedy_nearest (s : PeopleTracker) (dets : List Detection) :
    (s.frameEntries dets).length = s.tracks.length ∧
    (∀ i e tr, (s.frameEntries dets)[i]? = some e →
      (s.tracks.map Track.predict)[i]? = some tr →
      entryProp s.max_distance (dets.map (·.center))
        (claimedUpTo (s.frameEntries dets) i) tr e) ∧
    (∀ i e, (s.frameEntries dets)[i]? = some e → e.matched = none →
      claimedUpTo (s.frameEntries dets) (i + 1) =
        claimedUpTo (s.frameEntries dets) i) := by
  refine ⟨frameEntries_length s dets, ?_, ?_⟩
  · intro i e tr he htr
    exact frameEntries_spec s dets i e tr he htr
  · intro i e he hm
    rw [claimedUpTo_succ (s.frameEntries dets) i e he, hm]
    simp

theorem assoc_greedy_nearest_witness :
    (C1s.frameEntries C1dets).length = C1s.tracks.length ∧
    entryProp C1s.max_distance (C1dets.map (·.center))
      (claimedUpTo (C1s.frameEntries C1dets) 0) C1tr C1e :=
  ⟨(assoc_greedy_nearest C1s C1dets).1,
   (assoc_greedy_nearest C1s C1dets).2.1 0 C1e C1tr (by decide) (by decide)⟩

/-- C5 (as amended): if detection `k` is within the gate of exactly one
track `t` (beyond the gate for every other track), strictly closer to `t`'s
predicted centroid than to every other track's predicted centroid, and — the
amendment — strictly closer to `t`'s predicted centroid than every other
detection of the frame is, then the association matches `k` to `t`. -/
theorem unique_gated_nearest_matches (s : PeopleTracker) (dets : List Detection)
    (t k : ℕ) (tr : Track)
    (ht : (s.tracks.map Track.predict)[t]? = some tr)
    (hk : k < dets.length)
    (hgate : gateOK s.max_distance (detDist (trCenter tr) (dets.map (·.center)) k))
    (honly : ∀ j tr', j ≠ t → (s.tracks.map Track.predict)[j]? = some tr' →
      ¬ gateOK s.max_distance (detDist (trCenter tr') (dets.map (·.center)) k))
    (hcloser : ∀ j tr', j ≠ t → (s.tracks.map Track.predict)[j]? = some tr' →
      detDist (trCenter tr) (dets.map (·.center)) k <
        detDist (trCenter tr') (dets.map (·.center)) k)
    (hnear : ∀ m, m < dets.length → m ≠ k →
      detDist (trCenter tr) (dets.map (·.center)) k <
        detDist (trCenter tr) (dets.map (·.center)) m) :
    ∃ e, (s.frameEntries dets)[t]? = some e ∧ e.matched = some k := by
  have htlen : t < (s.tracks.map Track.predict).length :=
    (List.getElem?_eq_some.mp ht).1
  have hElen : t < (s.frameEntries dets).length := by
    rw [frameEntries_length]
    simpa using htlen
  have hE : (s.frameEntries dets)[t]? = some ((s.frameEntries dets)[t]) :=
    List.getElem?_eq_getElem hElen
  set e := (s.frameEntries dets)[t] with hedef
  have hkcs : k < (dets.map (·.center)).length := by simpa using hk
  -- detection k is not claimed by any earlier track
  have hclaim : k ∉ claimedUpTo (s.frameEntries dets) t := by
    intro hkmem
    obtain ⟨j, ej, hjt, hEj, hmj⟩ := claimedUpTo_mem k (s.frameEntries dets) t hkmem
    have hjlen : j < (s.tracks.map Track.predict).length := by
      have := (List.getElem?_eq_some.mp hEj).1
      rw [frameEntries_length] at this
      simpa using this
    have htrj : (s.tracks.map Track.predict)[j]? =
        some ((s.tracks.map Track.predict)[j]) := List.getElem?_eq_getElem hjlen
    have hspec := frameEntries_spec s dets j ej _ hEj htrj
    have hg := ((hspec.1 k hmj).2.2).1
    exact honly j _ (by omega) htrj hg
  have hspec := frameEntries_spec s dets t e tr hE ht
  cases hm : e.matched with
  | none =>
    exact absurd hgate (hspec.2 hm k hkcs hclaim)
  | some di =>
    obtain ⟨hdlen, hdnc, hdg, hdmin, hdtie⟩ := hspec.1 di hm
    by_cases hdk : di = k
    · exact ⟨e, hE, by rw [hm, hdk]⟩
    · have hle := hdmin k hkcs hclaim
      have hlt := hnear di (by simpa using hdlen) hdk
      exact absurd hlt (Frac.not_lt.mpr hle)

theorem unique_gated_nearest_matches_witness :
    ∃ e, (C5s.frameEntries C5dets)[0]? = some e ∧ e.matched = some 0 := by
  apply unique_gated_nearest_matches C5s C5dets 0 0 C5tr (by decide) (by decide) (by decide)
  · intro j tr' hj htr'
    have hlen : (C5s.tracks.map Track.predict).length = 1 := by decide
    have : (C5s.tracks.map Track.predict)[j]? = none := by
      apply List.getElem?_eq_none
      rw [hlen]
      omega
    rw [this] at htr'
    exact absurd htr' (by simp)
  · intro j tr' hj htr'
    have hlen : (C5s.tracks.map Track.predict).length = 1 := by decide
    have : (C5s.tracks.map Track.predict)[j]? = none := by
      apply List.getElem?_eq_none
      rw [hlen]
      omega
    rw [this] at htr'
    exact absurd htr' (by simp)
  · intro m hm hmk
    have hm2 : m < 2 := by simpa [C5dets] using hm
    have hm1 : m = 1 := by omega
    subst hm1
    decide

/-- Counterexample to C5 as stated: one track predicted at `(5, 5)`; detection
1 (centre `(45, 5)`) is within the 60-pixel gate of that track — the only
track, so "within the gate of exactly one track" and "strictly closer to it
than to any other track" hold — yet the greedy association gives the track
detection 0 (centre `(7, 5)`, distance 2 instead of 40), and detection 1
matches no track. -/
theorem greedy_prefers_closer_detection :
    ((C5s.tracks.map Track.predict)[0]? = some C5tr) ∧
    (1 : ℕ) < C5dets.length ∧
    gateOK C5s.max_distance (detDist (trCenter C5tr) (C5dets.map (·.center)) 1) ∧
    (∀ j tr', j ≠ 0 → (C5s.tracks.map Track.predict)[j]? = some tr' → False) ∧
    ¬ ∃ e, (C5s.frameEntries C5dets)[0]? = some e ∧ e.matched = some 1 := by
  refine ⟨by decide, by decide, by decide, ?_, ?_⟩
  · intro j tr' hj htr'
    have hlen : (C5s.tracks.map Track.predict).length = 1 := by decide
    have hnone : (C5s.tracks.map Track.predict)[j]? = none := by
      apply List.getElem?_eq_none
      rw [hlen]
      omega
    rw [hnone] at htr'
    exact absurd htr' (by simp)
  · rintro ⟨e, he, hm⟩
    have h0 : (C5s.frameEntries C5dets)[0]? = some ((C5s.frameEntries C5dets).getD 0 mEntryDflt) := by
      decide
    rw [h0] at he
    injection he with he
    rw [← he] at hm
    exact absurd hm (by decide)

theorem iterEmpty_max_missed :
    ∀ (k : ℕ) (s : PeopleTracker), (iterEmpty k s).max_missed = s.max_missed := by
  intro k
  induction k with
  | zero => intro s; rfl
  | succ k ih =>
    intro s
    show (iterEmpty k (s.update 0 []).tracker).max_missed = _
    rw [ih, update_max_missed]

theorem iterEmpty_succ_outer :
    ∀ (k : ℕ) (s : PeopleTracker),
      iterEmpty (k + 1) s = ((iterEmpty k s).update 0 []).tracker := by
  intro k
  induction k with
  | zero => intro s; rfl
  | succ k ih =>
    intro s
    show iterEmpty (k + 1) (s.update 0 []).tracker = _
    rw [ih ((s.update 0 []).tracker)]
    rfl

/-- Surviving `k` empty frames adds `k` to every `missed_frames` floor. -/
theorem iterEmpty_missed_ge :
    ∀ (k : ℕ) (s : PeopleTracker) (j : ℕ),
      (∀ t ∈ s.tracks, j ≤ t.missed_frames) →
      ∀ t ∈ (iterEmpty k s).tracks, j + k ≤ t.missed_frames := by
  intro k
  induction k with
  | zero => intro s j hj t ht; simpa using hj t ht
  | succ k ih =>
    intro s j hj t ht
    have hstep : ∀ t' ∈ ((s.update 0 []).tracker).tracks, j + 1 ≤ t'.missed_frames := by
      intro t' ht'
      rw [update_no_dets_tracks] at ht'
      have ht'' := List.mem_of_mem_filter ht'
      obtain ⟨t0, ht0, ht0eq⟩ := List.mem_map.mp ht''
      have := hj t0 ht0
      rw [← ht0eq]
      show j + 1 ≤ t0.predict.missed_frames + 1
      have hp : t0.predict.missed_frames = t0.missed_frames := rfl
      omega
    have := ih ((s.update 0 []).tracker) (j + 1) hstep t ht
    omega

/-- C4: a track unmatched in a frame has its `missed_frames` incremented and
appears in the new track set exactly when the incremented count is within
`max_missed`; the result list reproduces the surviving track set record for
record; and `max_missed + 1` consecutive empty frames leave no track. -/
theorem stale_removal_timing :
    (∀ (s : PeopleTracker) (tid : ℕ) (dets : List Detection) (i : ℕ)
        (e : MatchEntry) (t : Track),
      (s.frameEntries dets)[i]? = some e → s.tracks[i]? = some t →
      e.matched = none →
      e.track.missed_frames = t.missed_frames + 1 ∧
      (e.track ∈ (s.update tid dets).tracker.tracks ↔
        t.missed_frames + 1 ≤ s.max_missed)) ∧
    (∀ (s : PeopleTracker) (tid : ℕ) (dets : List Detection),
      ((s.update tid dets).results).map (fun r => (r.id, r.bbox, r.cls)) =
        ((s.update tid dets).tracker.tracks).map (fun t => (t.id, t.bbox, "person"))) ∧
    (∀ s : PeopleTracker, (iterEmpty (s.max_missed + 1) s).tracks = []) := by
  refine ⟨?_, ?_, ?_⟩
  · intro s tid dets i e t he ht hm
    have htr : (s.tracks.map Track.predict)[i]? = some t.predict := by
      rw [List.getElem?_map, ht]
      rfl
    have hshape := frameEntries_shape s dets i e t.predict he htr
    rcases hshape with ⟨-, htrk, -⟩ | ⟨di, hdi, -, -⟩
    · have hmf : e.track.missed_frames = t.missed_frames + 1 := by
        rw [htrk]
        rfl
      refine ⟨hmf, ?_, ?_⟩
      · intro hmem
        have := update_tracks_missed_le s tid dets e.track hmem
        omega
      · intro hle
        apply update_tracks_of_entry s tid dets e (List.getElem?_mem he)
        omega
    · rw [hm] at hdi
      exact absurd hdi (by simp)
  · intro s tid dets
    show (attachConfs dets _).map _ = _
    rw [attachConfs_map_fields, List.map_map]
    rfl
  · intro s
    apply List.eq_nil_iff_forall_not_mem.mpr
    intro t ht
    have hge := iterEmpty_missed_ge (s.max_missed + 1) s 0 (by omega) t ht
    have hsucc := iterEmpty_succ_outer s.max_missed s
    rw [hsucc] at ht
    have hle := update_tracks_missed_le (iterEmpty s.max_missed s) 0 [] t ht
    rw [iterEmpty_max_missed] at hle
    omega

theorem stale_removal_timing_witness :
    (C4e.track.missed_frames = C4t.missed_frames + 1 ∧
      (C4e.track ∈ (C4s.update 0 []).tracker.tracks ↔
        C4t.missed_frames + 1 ≤ C4s.max_missed)) ∧
    (iterEmpty (C4s.max_missed + 1) C4s).tracks = [] :=
  ⟨stale_removal_timing.1 C4s 0 [] 0 C4e C4t (by decide) (by decide) (by decide),
   stale_removal_timing.2.2 C4s⟩

theorem Track.init_bbox (b : Bbox) (n : ℕ) : (Track.init b n).bbox = b := by
  obtain ⟨x1, y1, x2, y2⟩ := b
  rfl

/-- C6: an unmatched track's `bbox` is unchanged by the frame; a matched
track's `bbox` becomes its paired detection's bbox exactly when the
measurement update succeeds, and stays unchanged when it fails; and every
track in the post-frame state carries either a pre-frame `bbox` or the `bbox`
of one of this frame's detections — never a box synthesized from the
filter's predicted state. -/
theorem bbox_last_observed :
    (∀ (s : PeopleTracker) (dets : List Detection) (i : ℕ) (e : MatchEntry) (t : Track),
      (s.frameEntries dets)[i]? = some e → s.tracks[i]? = some t →
      (e.matched = none → e.track.bbox = t.bbox) ∧
      (∀ di, e.matched = some di → e.diag = none →
        (dets.map (·.bbox))[di]? = some e.track.bbox) ∧
      (∀ di, e.matched = some di → e.diag ≠ none → e.track.bbox = t.bbox)) ∧
    (∀ (s : PeopleTracker) (tid : ℕ) (dets : List Detection) (t' : Track),
      t' ∈ (s.update tid dets).tracker.tracks →
      t'.bbox ∈ s.tracks.map (·.bbox) ∨ t'.bbox ∈ dets.map (·.bbox)) := by
  constructor
  · intro s dets i e t he ht
    have htr : (s.tracks.map Track.predict)[i]? = some t.predict := by
      rw [List.getElem?_map, ht]
      rfl
    have hshape := frameEntries_shape s dets i e t.predict he htr
    refine ⟨?_, ?_, ?_⟩
    · intro hm
      rcases hshape with ⟨-, htrk, -⟩ | ⟨di, hdi, -, -⟩
      · rw [htrk]; rfl
      · rw [hm] at hdi; exact absurd hdi (by simp)
    · intro di hm hdiag
      rcases hshape with ⟨hm0, -, -⟩ | ⟨di0, hdi0, htrk, hdg⟩
      · rw [hm] at hm0; exact absurd hm0 (by simp)
      · rw [hm] at hdi0
        injection hdi0 with hdd
        subst hdd
        rcases Track.updateD_cases t.predict ((dets.map (·.bbox)).getD di (0, 0, 0, 0)) with
          ⟨-, hbb, -, -, -⟩ | ⟨hdsome, -⟩
        · have hspec := frameEntries_spec s dets i e t.predict he htr
          have hlt : di < (dets.map (·.bbox)).length := by
            have := (hspec.1 di hm).1
            simpa using this
          have hgetd : (dets.map (·.bbox)).getD di (0, 0, 0, 0) =
              (dets.map (·.bbox))[di] := by
            rw [List.getD_eq_getElem?_getD, List.getElem?_eq_getElem hlt]
            rfl
          rw [List.getElem?_eq_getElem hlt]
          have : e.track.bbox = (dets.map (·.bbox))[di] := by
            rw [htrk, hbb, hgetd]
          rw [this]
        · rw [hdg, hdsome] at hdiag
          exact absurd hdiag (by simp)
    · intro di hm hdiag
      rcases hshape with ⟨hm0, -, -⟩ | ⟨di0, hdi0, htrk, hdg⟩
      · rw [hm] at hm0; exact absurd hm0 (by simp)
      · rcases Track.updateD_cases t.predict
            ((dets.map (·.bbox)).getD di0 (0, 0, 0, 0)) with
          ⟨hd2none, -, -, -, -⟩ | ⟨-, hunch⟩
        · rw [hdg, hd2none] at hdiag
          exact absurd rfl hdiag
        · rw [htrk, hunch]; rfl
  · intro s tid dets t' ht'
    rcases update_tracks_sub s tid dets t' ht' with hmem | hmem
    · obtain ⟨e, he, heq⟩ := List.mem_map.mp hmem
      obtain ⟨i, hi⟩ := List.mem_iff_getElem?.mp he
      have hilen : i < s.tracks.length := by
        have := (List.getElem?_eq_some.mp hi).1
        rw [frameEntries_length] at this
        exact this
      have ht0 : s.tracks[i]? = some (s.tracks[i]) := List.getElem?_eq_getElem hilen
      have htr : (s.tracks.map Track.predict)[i]? = some (s.tracks[i]).predict := by
        rw [List.getElem?_map, ht0]
        rfl
      have hshape := frameEntries_shape s dets i e (s.tracks[i]).predict hi htr
      have ht0mem : s.tracks[i] ∈ s.tracks := List.getElem_mem hilen
      rcases hshape with ⟨-, htrk, -⟩ | ⟨di, hdi, htrk, -⟩
      · left
        rw [← heq, htrk]
        exact List.mem_map_of_mem (·.bbox) ht0mem
      · rcases Track.updateD_cases (s.tracks[i]).predict
            ((dets.map (·.bbox)).getD di (0, 0, 0, 0)) with
          ⟨-, hbb, -, -, -⟩ | ⟨-, hunch⟩
        · right
          have hspec := frameEntries_spec s dets i e (s.tracks[i]).predict hi htr
          have hlt : di < (dets.map (·.bbox)).length := by
            have := (hspec.1 di hdi).1
            simpa using this
          have hgetd : (dets.map (·.bbox)).getD di (0, 0, 0, 0) =
              (dets.map (·.bbox))[di] := by
            rw [List.getD_eq_getElem?_getD, List.getElem?_eq_getElem hlt]
            rfl
          rw [← heq, htrk, hbb, hgetd]
          exact List.getElem_mem hlt
        · left
          rw [← heq, htrk, hunch]
          exact List.mem_map_of_mem (·.bbox) ht0mem
    · obtain ⟨det, hdet, n, heq⟩ := spawnLoop_mem _ dets 0 tid t' hmem
      right
      rw [heq, Track.init_bbox]
      exact List.mem_map_of_mem (·.bbox) hdet

theorem bbox_last_observed_witness :
    ((C6dets.map (·.bbox))[0]? = some C6e.track.bbox) ∧
    (C6e.track.bbox ∈ C6s.tracks.map (·.bbox) ∨
      C6e.track.bbox ∈ C6dets.map (·.bbox)) :=
  ⟨(bbox_last_observed.1 C6s C6dets 0 C6e C6t (by decide) (by decide)).2.1 0
      (by decide) (by decide),
   bbox_last_observed.2 C6s 0 C6dets C6e.track (by decide)⟩

/-- C7: when the Kalman measurement update fails for a matched track (the
only numeric-failure point of the filter step in exact arithmetic — a
singular innovation covariance, where `numpy.linalg.inv` raises), the caught
exception leaves the track's externally visible state (`bbox`,
`missed_frames`, `hits`) unchanged for the frame, a non-fatal diagnostic
naming the track is logged, every track of the frame is still processed
(entries and tracks stay in bijection), and — the track's budget permitting,
which holds for every reachable state — the track remains in the manager for
subsequent frames. -/
theorem kalman_failure_contained (s : PeopleTracker) (tid : ℕ)
    (dets : List Detection) (i : ℕ) (e : MatchEntry) (t : Track) (d : ℕ)
    (he : (s.frameEntries dets)[i]? = some e)
    (ht : s.tracks[i]? = some t)
    (hfail : e.diag = some d) :
    e.track.bbox = t.bbox ∧ e.track.missed_frames = t.missed_frames ∧
    e.track.hits = t.hits ∧ d = t.id ∧
    d ∈ (s.update tid dets).diags ∧
    (s.frameEntries dets).length = s.tracks.length ∧
    (t.missed_frames ≤ s.max_missed →
      e.track ∈ (s.update tid dets).tracker.tracks) := by
  have htr : (s.tracks.map Track.predict)[i]? = some t.predict := by
    rw [List.getElem?_map, ht]
    rfl
  have hshape := frameEntries_shape s dets i e t.predict he htr
  rcases hshape with ⟨-, -, hdg⟩ | ⟨di, -, htrk, hdg⟩
  · rw [hdg] at hfail
    exact absurd hfail (by simp)
  · rcases Track.updateD_cases t.predict ((dets.map (·.bbox)).getD di (0, 0, 0, 0)) with
      ⟨hd2none, -, -, -, -⟩ | ⟨hdsome, hunch⟩
    · rw [hdg, hd2none] at hfail
      exact absurd hfail (by simp)
    · have htrk' : e.track = t.predict := by rw [htrk, hunch]
      have hdid : d = t.id := by
        rw [hdg, hdsome] at hfail
        injection hfail with hfail
        exact hfail.symm
      refine ⟨by rw [htrk']; rfl, by rw [htrk']; rfl, by rw [htrk']; rfl, hdid, ?_,
        frameEntries_length s dets, ?_⟩
      · show d ∈ (s.frameEntries dets).filterMap (·.diag)
        exact List.mem_filterMap.mpr ⟨e, List.getElem?_mem he, by rw [hfail]⟩
      · intro hbudget
        apply update_tracks_of_entry s tid dets e (List.getElem?_mem he)
        rw [htrk']
        simpa using hbudget

theorem kalman_failure_contained_witness :
    C7e.track.bbox = C7t.bbox ∧ C7e.track.missed_frames = C7t.missed_frames ∧
    C7e.track.hits = C7t.hits ∧ (3 : ℕ) = C7t.id ∧
    (3 : ℕ) ∈ (C7s.update 0 C7dets).diags ∧
    (C7s.frameEntries C7dets).length = C7s.tracks.length ∧
    (C7t.missed_frames ≤ C7s.max_missed →
      C7e.track ∈ (C7s.update 0 C7dets).tracker.tracks) :=
  kalman_failure_contained C7s 0 C7dets 0 C7e C7t 3 (by decide) (by decide) (by decide)

/-- C10: every record of every frame's result list carries the constant class
string `"person"`; the class label of the input detections is never
propagated. -/
theorem results_class_person (s : PeopleTracker) (tid : ℕ) (dets : List Detection)
    (r : Result) (hr : r ∈ (s.update tid dets).results) :
    r.cls = "person" := by
  have hr' : r ∈ attachConfs dets
      ((((s.frameEntries dets).map (·.track) ++
          (spawnLoop ((s.frameEntries dets).filterMap (·.matched)) dets 0 tid).1).filter
        (fun t => t.missed_frames ≤ s.max_missed)).map
        (fun t => ({ id := t.id, bbox := t.bbox, conf := none, cls := "person" } : Result))) := hr
  obtain ⟨r0, hr0, -, -, hcls⟩ := attachConfs_mem dets _ r hr'
  obtain ⟨t0, -, ht0eq⟩ := List.mem_map.mp hr0
  rw [hcls, ← ht0eq]

theorem results_class_person_witness :
    C10r ∈ (C10s.update 1 C10dets).results ∧ C10r.cls = "person" :=
  ⟨by decide, results_class_person C10s 1 C10dets C10r (by decide)⟩

/-! ### C2 — the confidence-by-bbox-equality defect (tracker.py, lines 146–149)

Frame 1 spawns two tracks from two identical-bbox detections; in frame 2 a
single detection with that bbox is matched to track 1 only (track 2 is
unmatched and stale), yet the bbox-equality scan attaches the detection's
confidence to **both** result records. -/

/-- C2 fails on the code: after the two frames above, track 2 was neither
matched nor created in frame 2 (its association entry is `none`), yet its
result record carries the frame's detection confidence 0.9, attached by the
bbox-equality scan. -/
theorem conf_bbox_scan_leak :
    C2out1.tracker.tracks.map (·.id) = [1, 2] ∧
    (C2out1.tracker.frameEntries C2frame2).map (·.matched) = [some 0, none] ∧
    C2out2.results.map (fun r => (r.id, r.conf)) =
      [(1, some (Frac.ofInt 9 / Frac.ofInt 10)),
       (2, some (Frac.ofInt 9 / Frac.ofInt 10))] := by
  refine ⟨by decide, by decide, by decide⟩

/-! ### C3 — the module-global `_TRACK_ID` (tracker.py, lines 18, 73–74, 128–129)

Instance A assigns id 1; constructing instance B resets the global counter to
1; instance A's next spawn then reuses id 1. -/

/-- C3 fails on the code: after instance A has assigned id 1 (counter now 2),
constructing instance B resets the shared global counter to 1, and instance
A's next frame — a far-away detection that cannot match the surviving
track 1 — spawns a second track that also gets id 1. -/
theorem track_id_reuse_on_reinit :
    C3outA1.trackID = 2 ∧ C3instB.2 = 1 ∧
    C3outA2.tracker.tracks.map (·.id) = [1, 1] := by
  refine ⟨rfl, rfl, ?_⟩
  decide

/-! ### C8 — no validation of detection records (tracker.py, lines 92–130)

`PeopleTracker.update` never checks `x1 < x2`, `y1 < y2` or the confidence
range: a malformed detection participates fully. -/

/-- C8 fails on the code: the malformed detection (inverted coordinates,
out-of-range confidence) is not rejected — it spawns track 1 and is reported
in the frame's results with its out-of-range confidence. -/
theorem malformed_detection_not_rejected :
    (C8s.update 1 [C8mal]).tracker.tracks.map (fun t => (t.id, t.bbox)) =
      [(1, (10, 10, 0, 0))] ∧
    (C8s.update 1 [C8mal]).results.map (fun r => (r.id, r.bbox, r.conf)) =
      [(1, (10, 10, 0, 0), some (Frac.ofInt 3 / Frac.ofInt 2))] := by
  constructor <;> decide

/-! ### C9 — the detector's centroid rounding (detector.py, line 69) -/

/-- Counterexample to C9 as stated: for the box `(-3, 0, 0, 5)` the code's
centroid (Python floor division) is `(-2, 2)`, while the toward-zero midpoint
is `(-1, 2)`. -/
theorem detcenter_floor_not_toward_zero :
    detCenter (-3, 0, 0, 5) = (-2, 2) ∧
    centerTowardZero (-3, 0, 0, 5) = (-1, 2) ∧
    detCenter (-3, 0, 0, 5) ≠ centerTowardZero (-3, 0, 0, 5) := by
  refine ⟨rfl, rfl, ?_⟩
  decide

/-- C9 (as amended): the detection centroid is the integer midpoint rounded
toward negative infinity (the floor of the exact midpoint) — which agrees
with rounding toward zero for nonnegative coordinate sums but not for
negative odd ones — and the track filter's initial centroid
(`Track.__init__`) is the exact, unrounded midpoint. -/
theorem centroid_floor_midpoint (x1 y1 x2 y2 : ℤ) (n : ℕ) :
    detCenter (x1, y1, x2, y2) =
      (⌊((x1 : ℚ) + (x2 : ℚ)) / 2⌋, ⌊((y1 : ℚ) + (y2 : ℚ)) / 2⌋) ∧
    ((Track.init (x1, y1, x2, y2) n).kf.x 0).toRat = ((x1 : ℚ) + (x2 : ℚ)) / 2 ∧
    ((Track.init (x1, y1, x2, y2) n).kf.x 1).toRat = ((y1 : ℚ) + (y2 : ℚ)) / 2 := by
  refine ⟨?_, ?_, ?_⟩
  · show (Int.fdiv (x1 + x2) 2, Int.fdiv (y1 + y2) 2) = _
    have h1 := Rat.floor_intCast_div_natCast (x1 + x2) 2
    have h2 := Rat.floor_intCast_div_natCast (y1 + y2) 2
    push_cast at h1 h2
    rw [Prod.mk.injEq]
    constructor
    · rw [h1]
      exact Int.fdiv_eq_ediv _ (by norm_num)
    · rw [h2]
      exact Int.fdiv_eq_ediv _ (by norm_num)
  · show (Frac.ofInt (x1 + x2) / Frac.ofInt 2).toRat = _
    rw [Frac.toRat_div _ _ (by norm_num [Frac.ofInt]), Frac.toRat_ofInt, Frac.toRat_ofInt]
    push_cast
    ring
  · show (Frac.ofInt (y1 + y2) / Frac.ofInt 2).toRat = _
    rw [Frac.toRat_div _ _ (by norm_num [Frac.ofInt]), Frac.toRat_ofInt, Frac.toRat_ofInt]
    push_cast
    ring

/-! ## Faithfulness of the squared-distance embedding

The code compares `math.hypot`-distances; the embedding compares their
squares.  These lemmas show the two give the same comparisons: the gate test
`gateOK` is exactly `hypot ≤ max_distance`, and `<` on squared distances is
exactly `<` on the distances themselves. -/

theorem distSq_toRat_nonneg (a b : Frac × Frac) : 0 ≤ (distSq a b).toRat := by
  show 0 ≤ ((a.1 - b.1) * (a.1 - b.1) + (a.2 - b.2) * (a.2 - b.2)).toRat
  rw [Frac.toRat_add, Frac.toRat_mul, Frac.toRat_mul]
  nlinarith [mul_self_nonneg ((a.1 - b.1 : Frac)).toRat,
    mul_self_nonneg ((a.2 - b.2 : Frac)).toRat]

theorem gateOK_iff_sqrt (maxD : Frac) (a b : Frac × Frac) :
    gateOK maxD (distSq a b) ↔
      Real.sqrt (((distSq a b).toRat : ℝ)) ≤ ((maxD.toRat : ℝ)) := by
  constructor
  · rintro ⟨h0, hle⟩
    rw [Frac.le_iff_toRat, Frac.toRat_ofInt] at h0
    rw [Frac.le_iff_toRat, Frac.toRat_mul] at hle
    apply Real.sqrt_le_iff.mpr
    constructor
    · exact_mod_cast h0
    · rw [sq]
      exact_mod_cast hle
  · intro h
    obtain ⟨h2, h1⟩ := Real.sqrt_le_iff.mp h
    constructor
    · rw [Frac.le_iff_toRat, Frac.toRat_ofInt]
      exact_mod_cast h2
    · rw [Frac.le_iff_toRat, Frac.toRat_mul]
      rw [sq] at h1
      exact_mod_cast h1

theorem distSq_lt_iff_sqrt (a b c d : Frac × Frac) :
    distSq a b < distSq c d ↔
      Real.sqrt (((distSq a b).toRat : ℝ)) < Real.sqrt (((distSq c d).toRat : ℝ)) := by
  rw [Frac.lt_iff_toRat]
  rw [Real.sqrt_lt_sqrt_iff (by exact_mod_cast distSq_toRat_nonneg a b)]
  constructor
  · intro h; exact_mod_cast h
  · intro h; exact_mod_cast h
